import Mathlib

/-!
Verification development for `currency_convert.py`, a line-oriented CSV field
transformer.  The program's core is the "naive CSV" tokenizer/serializer pair:

* `NaiveCSV.reader` tokenizes each input line with the Python regex

    s*([^,"']+?|"(?:[^"\\]|\\.)*"|'(?:[^'\\]|\\.)*)\s*(?:,|$)

  applied via `re.findall` to `line.rstrip()`.  We embed Python strings as
  `List Char` and hand-compile this fixed pattern, alternative by alternative,
  into a backtracking matcher with exactly Python's semantics: `s*` is a
  greedy run of the literal character `s`; the first alternative is a lazy
  (`+?`) run of characters other than `,`, `"`, `'`; the second is a
  double-quoted span with backslash escapes and a mandatory closing quote;
  the third is a single-quoted span with backslash escapes and *no* closing
  quote; the tail `\s*(?:,|$)` greedily skips whitespace and then requires a
  comma or end of input.  The capture group spans the whole alternative, so
  quoted fields are captured *including* their quote characters.  Since the
  matcher only ever runs on `rstrip`-ed text, `$` is modelled as end of
  string (without `re.MULTILINE`, `$` matches only there or before a trailing
  newline, which `rstrip` has removed).

* `CSVWriter.writerow` wraps a field in double quotes exactly when
  `re.search(',', item)` succeeds, i.e. when the field contains a comma,
  joins the encoded fields with `","` and appends one newline.

* `convert_currency` mutates process-wide locale state; we model that state
  explicitly (`LocaleState`) and the function's effect on it
  (`convert_currency_state`).  The monetary formatting itself is out of scope
  per the specification and is abstracted.

* `main`'s per-row loop indexes `row[field-1]` with Python list-indexing
  semantics (negative indices wrap from the end); `pyIndex`, `pyGet`, `pySet`,
  `processRow` and `mainLoop` embed this, with the currency transform
  abstracted as an opaque function, again per the specification.
-/

namespace CurrencyConvert

/-- Python whitespace, as matched by `\s` in a `str` pattern and stripped by
`str.rstrip`: the ASCII whitespace characters together with the Unicode
space/separator characters. -/
def pyWS (c : Char) : Bool :=
  c = ' ' || c = '\t' || c = '\n' || c = '\r' || c = '\x0b' || c = '\x0c' ||
  c = '\x1c' || c = '\x1d' || c = '\x1e' || c = '\x1f' || c = '\u0085' || c = '\u00a0' ||
  c = '\u1680' || ('\u2000' ≤ c && c ≤ '\u200a') || c = '\u2028' || c = '\u2029' ||
  c = '\u202f' || c = '\u205f' || c = '\u3000'

/-- `line.rstrip()`: remove trailing Python whitespace. -/
def pyRstrip (cs : List Char) : List Char :=
  (cs.reverse.dropWhile pyWS).reverse

/-- The tail `\s*(?:,|$)` of the tokenizer regex.  The greedy `\s*` is
deterministic here: a shorter whitespace run leaves the next character a
whitespace character, which is neither `,` nor the end, so only the maximal
run can be followed by a match of `(?:,|$)`.  Returns the remainder of the
input after the consumed separator. -/
def sepTail (cs : List Char) : Option (List Char) :=
  match cs.dropWhile pyWS with
  | [] => some []
  | c :: rest => if c = ',' then some rest else none

/-- Characters admissible in the first alternative `[^,"']` of the capture
group. -/
def fieldChar (c : Char) : Bool :=
  !(c = ',' || c = '"' || c = '\'')

/-- The lazy continuation of the first alternative `[^,"']+?` followed by the
tail: having already consumed at least one character, first try to match the
tail here (lazy repetition prefers fewer iterations), otherwise consume one
more admissible character.  Returns the remaining lazily-consumed characters
together with the input left after the whole tail.  At the end of the input
the tail always matches (`sepTail [] = some []`, the `$` case), which the
first equation states directly. -/
def a1loop : List Char → Option (List Char × List Char)
  | [] => some ([], [])
  | c :: cs' =>
    (sepTail (c :: cs')).elim
      (if fieldChar c then (a1loop cs').map (fun p => (c :: p.1, p.2)) else none)
      (fun rest => some ([], rest))

/-- First alternative `[^,"']+?` (with the regex tail): at least one
admissible character, then the lazy loop. -/
def alt1 (cs : List Char) : Option (List Char × List Char) :=
  match cs with
  | [] => none
  | c :: cs' =>
    if fieldChar c then (a1loop cs').map (fun p => (c :: p.1, p.2)) else none

/-- Inner part of the second alternative, `(?:[^"\\]|\\.)*"`, starting just
after the opening double quote.  The two iteration elements have disjoint
first characters, so the loop is a deterministic chain; it can only stop at a
double quote (success, the mandatory closing quote), at the end of input, or
at a backslash that cannot complete `\\.` (both failures — no earlier chain
position carries a double quote, so greedy backtracking cannot recover).
Returns the consumed characters including the closing quote, and the rest. -/
def a2chain (cs : List Char) : Option (List Char × List Char) :=
  match cs with
  | [] => none
  | c :: cs' =>
    if c = '"' then some (['"'], cs')
    else if c = '\\' then
      match cs' with
      | [] => none
      | d :: cs'' =>
        if d = '\n' then none
        else (a2chain cs'').map (fun p => ('\\' :: d :: p.1, p.2))
    else (a2chain cs').map (fun p => (c :: p.1, p.2))

/-- Second alternative `"(?:[^"\\]|\\.)*"` (with the regex tail).  The
capture includes both quote characters. -/
def alt2 (cs : List Char) : Option (List Char × List Char) :=
  match cs with
  | [] => none
  | c :: cs' =>
    if c = '"' then
      (a2chain cs').bind (fun p => (sepTail p.2).map (fun rest => ('"' :: p.1, rest)))
    else none

/-- Inner part of the third alternative, `(?:[^'\\]|\\.)*` followed by the
regex tail, starting just after the opening single quote.  The greedy loop
prefers consuming another element; if the continuation fails it exits at the
current position and tries the tail there (the loop elements again have
disjoint first characters, so the reachable positions form a chain and
backtracking retreats along it). -/
def a3loop : List Char → Option (List Char × List Char)
  | [] => (sepTail []).map (fun rest => (([] : List Char), rest))
  | c :: cs' =>
    if c = '\'' then (sepTail (c :: cs')).map (fun rest => (([] : List Char), rest))
    else if c = '\\' then
      match cs' with
      | [] => (sepTail (c :: cs')).map (fun rest => (([] : List Char), rest))
      | d :: cs'' =>
        if d = '\n' then (sepTail (c :: d :: cs'')).map (fun rest => (([] : List Char), rest))
        else
          (a3loop cs'').elim
            ((sepTail (c :: d :: cs'')).map (fun rest => (([] : List Char), rest)))
            (fun p => some ('\\' :: d :: p.1, p.2))
    else
      (a3loop cs').elim
        ((sepTail (c :: cs')).map (fun rest => (([] : List Char), rest)))
        (fun p => some (c :: p.1, p.2))

/-- Third alternative `'(?:[^'\\]|\\.)*` (with the regex tail).  There is no
closing quote in the pattern; the capture includes the opening quote. -/
def alt3 (cs : List Char) : Option (List Char × List Char) :=
  match cs with
  | [] => none
  | c :: cs' =>
    if c = '\'' then (a3loop cs').map (fun p => ('\'' :: p.1, p.2)) else none

/-- The capture group: the three alternatives in the pattern's order. -/
def fieldAlts (cs : List Char) : Option (List Char × List Char) :=
  (alt1 cs).elim ((alt2 cs).elim (alt3 cs) some) some

/-- One attempted match of the whole pattern at the current position: the
greedy literal run `s*` (longest first, retreating one `s` at a time on
failure of the remainder), then the capture group and tail.  Returns the
captured field and the input remaining after the match. -/
def sbMatch : List Char → Option (List Char × List Char)
  | [] => fieldAlts []
  | c :: cs' =>
    if c = 's' then (sbMatch cs').elim (fieldAlts (c :: cs')) some
    else fieldAlts (c :: cs')

/-- `re.findall` scanning, with explicit fuel (one unit per input position):
find the leftmost match at or after the current position, emit its capture,
and continue after the match.  Every match consumes at least one character,
so fuel equal to the input length suffices (`findAll`). -/
def findAllGo : Nat → List Char → List (List Char)
  | 0, _ => []
  | _ + 1, [] => []
  | fuel + 1, c :: cs' =>
    (sbMatch (c :: cs')).elim (findAllGo fuel cs')
      (fun p => p.1 :: findAllGo fuel p.2)

/-- `re.findall(pattern, cs)` for the tokenizer pattern. -/
def findAll (cs : List Char) : List (List Char) :=
  findAllGo cs.length cs

/-- Tokenization of one line, as performed by `NaiveCSV.reader` for each
line of the input file: `r.findall(line.rstrip())`. -/
def tokenize (line : List Char) : List (List Char) :=
  findAll (pyRstrip line)

namespace NaiveCSV

/-- `NaiveCSV.reader`: an array of parsed arrays, one per input line. -/
def reader (inputLines : List (List Char)) : List (List (List Char)) :=
  inputLines.map tokenize

end NaiveCSV

namespace CSVWriter

/-- The body of `writerow`'s loop: `re.search(',', item)` succeeds exactly
when the field contains a comma, in which case the entire element is wrapped
in double quotes. -/
def encodeField (item : List Char) : List Char :=
  if ',' ∈ item then '"' :: (item ++ ['"']) else item

/-- The `output` list built by `writerow`'s loop. -/
def encodeRow : List (List Char) → List (List Char)
  | [] => []
  | item :: rest => encodeField item :: encodeRow rest

/-- Python's `",".join`. -/
def joinComma : List (List Char) → List Char
  | [] => []
  | [x] => x
  | x :: y :: rest => x ++ ',' :: joinComma (y :: rest)

/-- `CSVWriter.writerow`: the line written to the output file,
`",".join(output) + "\n"`. -/
def writerow (row : List (List Char)) : List Char :=
  joinComma (encodeRow row) ++ ['\n']

end CSVWriter

/-- The serializer contract as worded by the specification (§4.2): each field
is wrapped in double quotes if and only if it contains a comma, the encoded
fields are joined with a single comma, and one line terminator is appended.
Stated independently of `CSVWriter.writerow` so that the two can be compared
by a refinement theorem. -/
def specSerialize (row : List (List Char)) : List Char :=
  List.intercalate [','] (row.map (fun f => if ',' ∈ f then '"' :: (f ++ ['"']) else f)) ++ ['\n']

/-- Errors that the relevant Python operations in `main` can raise. -/
inductive PyError where
  | indexError
deriving DecidableEq

/-- Normalization of a Python list index: a non-negative index must be below
the length; a negative index counts from the end and must not reach below
`-len`. -/
def pyIndex (len : Nat) (i : Int) : Option Nat :=
  if 0 ≤ i then (if i < (len : Int) then some i.toNat else none)
  else (if 0 ≤ i + (len : Int) then some (i + (len : Int)).toNat else none)

/-- Python `l[i]` for a list, `none` meaning an `IndexError`. -/
def pyGet (l : List α) (i : Int) : Option α :=
  (pyIndex l.length i).bind (fun n => l.get? n)

/-- Python `l[i] = a` for a list, `none` meaning an `IndexError`. -/
def pySet (l : List α) (i : Int) (a : α) : Option (List α) :=
  (pyIndex l.length i).map (fun n => l.set n a)

/-- The body of `main`'s loop for one row:
`field = row[args.field-1]; row[args.field-1] = convert_currency(float(field), m)`.
The currency transform is abstracted as the function `conv` (the
specification treats the monetary formatting as an opaque external
collaborator, and its floating-point behaviour is out of scope here). -/
def processRow (conv : List Char → List Char) (fieldIdx : Int)
    (row : List (List Char)) : Except PyError (List (List Char)) :=
  (pyGet row (fieldIdx - 1)).elim (.error .indexError) (fun field =>
    (pySet row (fieldIdx - 1) (conv field)).elim (.error .indexError) .ok)

/-- `main`'s loop over the parsed rows: each row is processed and written in
turn; the first raised error aborts the run (no row is skipped and no later
row is processed).  The result collects the lines written by
`csvwriter.writerow`. -/
def mainLoop (conv : List Char → List Char) (fieldIdx : Int) :
    List (List (List Char)) → Except PyError (List (List Char))
  | [] => .ok []
  | row :: rest =>
    (processRow conv fieldIdx row).bind (fun row' =>
      (mainLoop conv fieldIdx rest).map (fun ls => CSVWriter.writerow row' :: ls))

/-- The process-wide locale state touched by `convert_currency`: the
`LC_MONETARY` and `LC_CTYPE` category locales and the two
`locale._override_localeconv` entries the function installs (`none` means
the entry is absent from the override dictionary). -/
structure LocaleState where
  lcMonetary : String
  lcCtype : String
  pCsPrecedes : Option Nat
  nCsPrecedes : Option Nat
deriving DecidableEq

/-- The effect of one `convert_currency(value, multiplier, loc, ...)` call on
the process-wide locale state, statement by statement:
`orig_loc = locale.getlocale()` reads the `LC_CTYPE` category (the default
category of `getlocale`); `locale.setlocale(locale.LC_MONETARY, loc)` sets the
monetary locale; `locale._override_localeconv.update(...)` installs the two
override entries; `locale.setlocale(locale.LC_MONETARY, orig_loc)` sets the
monetary locale to the saved value.  The `locale.currency(...)` call only
reads this state, and the numeric value does not influence it. -/
def convert_currency_state (loc : String) (s : LocaleState) : LocaleState :=
  let orig_loc := s.lcCtype
  let s1 : LocaleState := { s with lcMonetary := loc }
  let s2 : LocaleState := { s1 with pCsPrecedes := some 1, nCsPrecedes := some 1 }
  { s2 with lcMonetary := orig_loc }

/-- A field whose last character is Python whitespace (`false` for the empty
field). -/
def endsWS (l : List Char) : Bool :=
  match l.getLast? with
  | some c => pyWS c
  | none => false

/-- A "plain" field: non-empty, made of characters other than `,`, `"`, `'`,
not starting with the literal character `s` and not ending in whitespace.
These are the fields on which the tokenizer's first alternative matches the
whole field verbatim. -/
def plainField (f : List Char) : Bool :=
  match f with
  | [] => false
  | c :: _ => c ≠ 's' && f.all fieldChar && !endsWS f


/-! ### Basic facts about the separator tail and field characters -/

theorem pyWS_comma : pyWS ',' = false := by decide

theorem fieldChar_ne_comma {c : Char} (h : fieldChar c = true) : c ≠ ',' := by
  unfold fieldChar at h
  simp only [Bool.not_eq_true', Bool.or_eq_false_iff, decide_eq_false_iff_not] at h
  exact h.1.1

theorem sepTail_nil : sepTail [] = some [] := rfl

theorem sepTail_comma (r : List Char) : sepTail (',' :: r) = some r := by
  simp [sepTail, List.dropWhile_cons, pyWS_comma]

theorem sepTail_cons_ws {a : Char} (h : pyWS a = true) (l : List Char) :
    sepTail (a :: l) = sepTail l := by
  simp [sepTail, List.dropWhile_cons, h]

theorem sepTail_cons_nws {a : Char} (h : pyWS a = false) (hne : a ≠ ',') (l : List Char) :
    sepTail (a :: l) = none := by
  simp [sepTail, List.dropWhile_cons, h, hne]

theorem dropWhile_ws_append {w : List Char} (h : w.all pyWS = true) (t : List Char) :
    (w ++ t).dropWhile pyWS = t.dropWhile pyWS := by
  induction w with
  | nil => rfl
  | cons a w ih =>
    simp only [List.all_cons, Bool.and_eq_true] at h
    simp [List.dropWhile_cons, h.1, ih h.2]

theorem sepTail_ws_comma {w : List Char} (h : w.all pyWS = true) (r : List Char) :
    sepTail (w ++ ',' :: r) = some r := by
  simp [sepTail, dropWhile_ws_append h, List.dropWhile_cons, pyWS_comma]

theorem endsWS_cons {x : List Char} (hx : x ≠ []) (c : Char) :
    endsWS (c :: x) = endsWS x := by
  match x, hx with
  | b :: l, _ => simp [endsWS, List.getLast?_cons_cons]

theorem endsWS_concat (x : List Char) (c : Char) : endsWS (x ++ [c]) = pyWS c := by
  simp [endsWS, List.getLast?_concat]

/-! ### One-step equations for the recursive matcher functions -/

theorem a1loop_nil : a1loop [] = some ([], []) := rfl

theorem a1loop_eq_some {c : Char} {cs' u : List Char} (h : sepTail (c :: cs') = some u) :
    a1loop (c :: cs') = some ([], u) := by
  simp only [a1loop]
  rw [h, Option.elim_some]

theorem a1loop_eq_step {c : Char} {cs' : List Char} (h : sepTail (c :: cs') = none) :
    a1loop (c :: cs') =
      if fieldChar c then (a1loop cs').map (fun p => (c :: p.1, p.2)) else none := by
  simp only [a1loop]
  rw [h, Option.elim_none]

theorem a2chain_nil : a2chain [] = none := rfl

theorem a2chain_quote (cs' : List Char) : a2chain ('"' :: cs') = some (['"'], cs') := by
  cases cs' <;> simp [a2chain]

theorem a2chain_bs_nil : a2chain ['\\'] = none := by
  simp [a2chain]

theorem a2chain_bs_nl (cs'' : List Char) : a2chain ('\\' :: '\n' :: cs'') = none := by
  simp [a2chain]

theorem a2chain_bs {d : Char} (hd : d ≠ '\n') (cs'' : List Char) :
    a2chain ('\\' :: d :: cs'') =
      (a2chain cs'').map (fun p => ('\\' :: d :: p.1, p.2)) := by
  simp [a2chain, hd]

theorem a2chain_other {c : Char} (h1 : c ≠ '"') (h2 : c ≠ '\\') (cs' : List Char) :
    a2chain (c :: cs') = (a2chain cs').map (fun p => (c :: p.1, p.2)) := by
  cases cs' <;> simp [a2chain, h1, h2]

theorem a3loop_nil : a3loop [] = some ([], []) := rfl

theorem a3loop_quote (cs' : List Char) : a3loop ('\'' :: cs') = none := by
  have hsep : sepTail ('\'' :: cs') = none := sepTail_cons_nws (by decide) (by decide) _
  cases cs' <;> simp_all [a3loop]

theorem a3loop_bs_nil : a3loop ['\\'] = none := by
  have hsep : sepTail ['\\'] = none := sepTail_cons_nws (by decide) (by decide) _
  simp [a3loop, hsep]

theorem a3loop_bs_nl (cs'' : List Char) : a3loop ('\\' :: '\n' :: cs'') = none := by
  have hsep : sepTail ('\\' :: '\n' :: cs'') = none :=
    sepTail_cons_nws (by decide) (by decide) _
  simp [a3loop, hsep]

theorem a3loop_bs {d : Char} (hd : d ≠ '\n') (cs'' : List Char) :
    a3loop ('\\' :: d :: cs'') =
      (a3loop cs'').elim none (fun p => some ('\\' :: d :: p.1, p.2)) := by
  have hsep : sepTail ('\\' :: d :: cs'') = none :=
    sepTail_cons_nws (by decide) (by decide) _
  simp [a3loop, hd, hsep]

theorem a3loop_other {c : Char} (h1 : c ≠ '\'') (h2 : c ≠ '\\') (cs' : List Char) :
    a3loop (c :: cs') =
      (a3loop cs').elim
        ((sepTail (c :: cs')).map (fun rest => (([] : List Char), rest)))
        (fun p => some (c :: p.1, p.2)) := by
  cases cs' <;> simp [a3loop, h1, h2]

theorem sbMatch_cons_s (cs' : List Char) :
    sbMatch ('s' :: cs') = (sbMatch cs').elim (fieldAlts ('s' :: cs')) some := by
  simp [sbMatch]

theorem sbMatch_cons_ne {c : Char} (h : c ≠ 's') (cs' : List Char) :
    sbMatch (c :: cs') = fieldAlts (c :: cs') := by
  simp [sbMatch, h]

/-! ### Length bounds: every successful match consumes at least one character -/

theorem sepTail_length {cs u : List Char} (h : sepTail cs = some u) :
    u.length ≤ cs.length := by
  have hsub : (cs.dropWhile pyWS).length ≤ cs.length :=
    (List.dropWhile_sublist pyWS).length_le
  unfold sepTail at h
  rcases hd : cs.dropWhile pyWS with _ | ⟨c, rest⟩ <;> rw [hd] at h hsub
  · simp only [Option.some.injEq] at h
    subst h; simp
  · by_cases hc : c = ','
    · simp only [hc, if_true, Option.some.injEq] at h
      subst h
      simp at hsub
      omega
    · simp [hc] at h

theorem a1loop_length : ∀ cs : List Char, ∀ {p : List Char × List Char},
    a1loop cs = some p → p.2.length ≤ cs.length := by
  intro cs
  induction cs with
  | nil =>
    intro p hp
    rw [a1loop_nil] at hp
    simp only [Option.some.injEq] at hp
    subst hp
    simp
  | cons c cs' ih =>
    intro p hp
    rcases hs : sepTail (c :: cs') with _ | u
    · rw [a1loop_eq_step hs] at hp
      by_cases hc : fieldChar c = true
      · rw [if_pos hc] at hp
        rcases hq : a1loop cs' with _ | q <;> rw [hq] at hp
        · simp at hp
        · simp only [Option.map_some', Option.some.injEq] at hp
          subst hp
          have h5 : q.2.length ≤ cs'.length := ih hq
          simp only [List.length_cons]
          omega
      · rw [if_neg hc] at hp
        simp at hp
    · rw [a1loop_eq_some hs] at hp
      simp only [Option.some.injEq] at hp
      subst hp
      exact sepTail_length hs

theorem a2chain_length : ∀ cs : List Char, ∀ {p : List Char × List Char},
    a2chain cs = some p → p.2.length < cs.length := by
  intro cs
  induction cs using a2chain.induct with
  | case1 =>
    intro p hp
    simp [a2chain_nil] at hp
  | case2 rest =>
    intro p hp
    rw [a2chain_quote] at hp
    simp only [Option.some.injEq] at hp
    subst hp; simp
  | case3 hb =>
    intro p hp
    simp [a2chain_bs_nil] at hp
  | case4 rest hb =>
    intro p hp
    simp [a2chain_bs_nl] at hp
  | case5 d rest hd hb ih =>
    intro p hp
    rw [a2chain_bs hd] at hp
    rcases hq : a2chain rest with _ | q <;> rw [hq] at hp
    · simp at hp
    · simp only [Option.map_some', Option.some.injEq] at hp
      subst hp
      have h5 : q.2.length < rest.length := ih hq
      simp only [List.length_cons]
      omega
  | case6 d rest h1 h2 ih =>
    intro p hp
    rw [a2chain_other h1 h2] at hp
    rcases hq : a2chain rest with _ | q <;> rw [hq] at hp
    · simp at hp
    · simp only [Option.map_some', Option.some.injEq] at hp
      subst hp
      have h5 : q.2.length < rest.length := ih hq
      simp only [List.length_cons]
      omega

theorem a3loop_length : ∀ cs : List Char, ∀ {p : List Char × List Char},
    a3loop cs = some p → p.2.length ≤ cs.length := by
  intro cs
  induction cs using a3loop.induct with
  | case1 =>
    intro p hp
    rw [a3loop_nil] at hp
    simp only [Option.some.injEq] at hp
    subst hp; simp
  | case2 rest =>
    intro p hp
    simp [a3loop_quote] at hp
  | case3 hb =>
    intro p hp
    simp [a3loop_bs_nil] at hp
  | case4 rest hb =>
    intro p hp
    simp [a3loop_bs_nl] at hp
  | case5 d rest hd hb ih =>
    intro p hp
    rw [a3loop_bs hd] at hp
    rcases hq : a3loop rest with _ | q <;> rw [hq] at hp
    · simp at hp
    · rw [Option.elim_some] at hp
      simp only [Option.some.injEq] at hp
      subst hp
      have h5 : q.2.length ≤ rest.length := ih hq
      simp only [List.length_cons]
      omega
  | case6 c rest h1 h2 ih =>
    intro p hp
    rw [a3loop_other h1 h2] at hp
    rcases hq : a3loop rest with _ | q <;> rw [hq] at hp
    · rw [Option.elim_none] at hp
      rcases hs : sepTail (c :: rest) with _ | u <;> rw [hs] at hp
      · simp at hp
      · simp only [Option.map_some', Option.some.injEq] at hp
        subst hp
        exact sepTail_length hs
    · rw [Option.elim_some] at hp
      simp only [Option.some.injEq] at hp
      subst hp
      have h5 : q.2.length ≤ rest.length := ih hq
      simp only [List.length_cons]
      omega

theorem alt1_length {c : Char} {cs' : List Char} {p : List Char × List Char}
    (h : alt1 (c :: cs') = some p) : p.2.length < (c :: cs').length := by
  simp only [alt1] at h
  by_cases hc : fieldChar c = true
  · rw [if_pos hc] at h
    rcases hr : a1loop cs' with _ | q <;> rw [hr] at h
    · simp at h
    · simp only [Option.map_some', Option.some.injEq] at h
      subst h
      have h5 : q.2.length ≤ cs'.length := a1loop_length cs' hr
      simp only [List.length_cons]
      omega
  · rw [if_neg hc] at h
    simp at h

theorem alt2_length {c : Char} {cs' : List Char} {p : List Char × List Char}
    (h : alt2 (c :: cs') = some p) : p.2.length < (c :: cs').length := by
  simp only [alt2] at h
  by_cases hq : c = '"'
  · rw [if_pos hq] at h
    rcases hr : a2chain cs' with _ | q <;> rw [hr] at h
    · simp at h
    · simp only [Option.some_bind] at h
      rcases hs : sepTail q.2 with _ | u <;> rw [hs] at h
      · simp at h
      · simp only [Option.map_some', Option.some.injEq] at h
        subst h
        have h3 : q.2.length < cs'.length := a2chain_length cs' hr
        have h4 := sepTail_length hs
        simp only [List.length_cons]
        omega
  · rw [if_neg hq] at h
    simp at h

theorem alt3_length {c : Char} {cs' : List Char} {p : List Char × List Char}
    (h : alt3 (c :: cs') = some p) : p.2.length < (c :: cs').length := by
  simp only [alt3] at h
  by_cases hq : c = '\''
  · rw [if_pos hq] at h
    rcases hr : a3loop cs' with _ | q <;> rw [hr] at h
    · simp at h
    · simp only [Option.map_some', Option.some.injEq] at h
      subst h
      have h5 : q.2.length ≤ cs'.length := a3loop_length cs' hr
      simp only [List.length_cons]
      omega
  · rw [if_neg hq] at h
    simp at h

theorem fieldAlts_nil : fieldAlts [] = none := rfl

theorem fieldAlts_length {c : Char} {cs' : List Char} {p : List Char × List Char}
    (h : fieldAlts (c :: cs') = some p) : p.2.length < (c :: cs').length := by
  unfold fieldAlts at h
  rcases h1 : alt1 (c :: cs') with _ | q <;> rw [h1] at h
  · rw [Option.elim_none] at h
    rcases h2 : alt2 (c :: cs') with _ | q <;> rw [h2] at h
    · rw [Option.elim_none] at h
      exact alt3_length h
    · rw [Option.elim_some] at h
      simp only [Option.some.injEq] at h
      subst h
      exact alt2_length h2
  · rw [Option.elim_some] at h
    simp only [Option.some.injEq] at h
    subst h
    exact alt1_length h1

theorem sbMatch_nil : sbMatch [] = none := rfl

theorem sbMatch_length : ∀ cs : List Char, ∀ {p : List Char × List Char},
    sbMatch cs = some p → p.2.length < cs.length := by
  intro cs
  induction cs using sbMatch.induct with
  | case1 =>
    intro p h
    simp [sbMatch_nil] at h
  | case2 rest ih =>
    intro p h
    rw [sbMatch_cons_s] at h
    rcases hq : sbMatch rest with _ | q <;> rw [hq] at h
    · rw [Option.elim_none] at h
      exact fieldAlts_length h
    · rw [Option.elim_some] at h
      simp only [Option.some.injEq] at h
      subst h
      have h5 : q.2.length < rest.length := ih hq
      simp only [List.length_cons]
      omega
  | case3 c rest hc =>
    intro p h
    rw [sbMatch_cons_ne hc] at h
    exact fieldAlts_length h

/-! ### Fuel irrelevance and unfolding equations for `findAll` -/

theorem findAllGo_congr : ∀ n m : Nat, ∀ cs : List Char,
    cs.length ≤ n → cs.length ≤ m → findAllGo n cs = findAllGo m cs := by
  intro n
  induction n with
  | zero =>
    intro m cs hn _
    have : cs = [] := List.length_eq_zero.mp (Nat.le_zero.mp hn)
    subst this
    cases m <;> rfl
  | succ n ih =>
    intro m cs hn hm
    match cs, m with
    | [], 0 => rfl
    | [], m' + 1 => rfl
    | c :: cs', m' + 1 =>
      simp only [findAllGo]
      rcases hq : sbMatch (c :: cs') with _ | p
      · rw [Option.elim_none, Option.elim_none]
        simp only [List.length_cons] at hn hm
        exact ih m' cs' (by omega) (by omega)
      · rw [Option.elim_some, Option.elim_some]
        have hlen := sbMatch_length (c :: cs') hq
        simp only [List.length_cons] at hn hm hlen
        rw [ih m' p.2 (by omega) (by omega)]

theorem findAll_nil : findAll [] = [] := rfl

theorem findAll_cons_some {c : Char} {cs' : List Char} {p : List Char × List Char}
    (h : sbMatch (c :: cs') = some p) :
    findAll (c :: cs') = p.1 :: findAll p.2 := by
  unfold findAll
  simp only [List.length_cons, findAllGo]
  rw [h, Option.elim_some]
  have hlen := sbMatch_length (c :: cs') h
  simp only [List.length_cons] at hlen
  rw [findAllGo_congr cs'.length p.2.length p.2 (by omega) (by omega)]

theorem findAll_cons_none {c : Char} {cs' : List Char}
    (h : sbMatch (c :: cs') = none) :
    findAll (c :: cs') = findAll cs' := by
  unfold findAll
  simp only [List.length_cons, findAllGo]
  rw [h, Option.elim_none]

/-! ### The first alternative matches a plain field verbatim -/

theorem endsWS_singleton (c : Char) : endsWS [c] = pyWS c := rfl

theorem plainField_cons {c : Char} {f' : List Char} (h : plainField (c :: f') = true) :
    c ≠ 's' ∧ (c :: f').all fieldChar = true ∧ endsWS (c :: f') = false := by
  simp only [plainField, Bool.and_eq_true, Bool.not_eq_true', decide_eq_true_eq] at h
  exact ⟨h.1.1, h.1.2, h.2⟩

theorem plainField_ne_nil {f : List Char} (h : plainField f = true) : f ≠ [] := by
  cases f with
  | nil => simp [plainField] at h
  | cons c f' => simp

/-- The regex tail `\s*(?:,|$)` cannot fire inside a run of admissible field
characters that does not end in whitespace: skipping whitespace from any
suffix position lands on a non-comma field character. -/
theorem sepTail_plain_ne : ∀ x : List Char, ∀ t : List Char,
    x.all fieldChar = true → endsWS x = false → x ≠ [] →
    sepTail (x ++ t) = none := by
  intro x
  induction x with
  | nil => intro t _ _ hne; exact absurd rfl hne
  | cons c x' ih =>
    intro t hall hws _
    simp only [List.all_cons, Bool.and_eq_true] at hall
    by_cases hc : pyWS c = true
    · have hx' : x' ≠ [] := by
        intro hnil
        subst hnil
        rw [endsWS_singleton] at hws
        rw [hc] at hws
        exact Bool.true_eq_false.mp hws
      rw [List.cons_append, sepTail_cons_ws hc]
      exact ih t hall.2 (by rw [endsWS_cons hx'] at hws; exact hws) hx'
    · rw [List.cons_append,
        sepTail_cons_nws (Bool.not_eq_true _ ▸ hc) (fieldChar_ne_comma hall.1)]

/-- The lazy loop of the first alternative consumes exactly a plain remainder
`x` and then matches the tail on `t`. -/
theorem a1loop_plain : ∀ x : List Char, ∀ {t u : List Char},
    x.all fieldChar = true → endsWS x = false → sepTail t = some u →
    a1loop (x ++ t) = some (x, u) := by
  intro x
  induction x with
  | nil =>
    intro t u _ _ hsep
    cases t with
    | nil =>
      rw [sepTail_nil] at hsep
      simp only [Option.some.injEq] at hsep
      subst hsep
      exact a1loop_nil
    | cons c t' => exact a1loop_eq_some hsep
  | cons c x' ih =>
    intro t u hall hws hsep
    simp only [List.all_cons, Bool.and_eq_true] at hall
    have hx'ws : endsWS x' = false := by
      cases hx' : x' with
      | nil => rfl
      | cons d x'' =>
        rw [hx'] at hws
        rw [endsWS_cons (by simp)] at hws
        exact hws
    have hsepx : sepTail ((c :: x') ++ t) = none :=
      sepTail_plain_ne (c :: x') t (by simp [hall.1, hall.2]) hws (by simp)
    rw [List.cons_append] at hsepx ⊢
    rw [a1loop_eq_step hsepx, if_pos hall.1, ih hall.2 hx'ws hsep]
    rfl

/-- A plain field followed by a separator: the whole pattern matches, the
capture is exactly the field, and the input after the separator remains. -/
theorem sbMatch_plain {f : List Char} (hf : plainField f = true)
    {t u : List Char} (hsep : sepTail t = some u) :
    sbMatch (f ++ t) = some (f, u) := by
  cases f with
  | nil => exact absurd hf (by simp [plainField])
  | cons c f' =>
    obtain ⟨hs, hall, hws⟩ := plainField_cons hf
    simp only [List.all_cons, Bool.and_eq_true] at hall
    have hws' : endsWS f' = false := by
      cases hx' : f' with
      | nil => rfl
      | cons d f'' =>
        rw [hx'] at hws
        rw [endsWS_cons (by simp)] at hws
        exact hws
    have halt1 : alt1 ((c :: f') ++ t) = some (c :: f', u) := by
      rw [List.cons_append]
      simp only [alt1]
      rw [if_pos hall.1, a1loop_plain f' hall.2 hws' hsep]
      rfl
    have hfa : fieldAlts ((c :: f') ++ t) = some (c :: f', u) := by
      unfold fieldAlts
      rw [halt1, Option.elim_some]
    rw [List.cons_append] at hfa ⊢
    rw [sbMatch_cons_ne hs, hfa]

/-! ### Scanning a comma-joined sequence of plain fields -/

theorem joinComma_cons_cons (x y : List Char) (rest : List (List Char)) :
    CSVWriter.joinComma (x :: y :: rest) = x ++ ',' :: CSVWriter.joinComma (y :: rest) := rfl

theorem joinComma_singleton (x : List Char) : CSVWriter.joinComma [x] = x := rfl

theorem joinComma_ne_nil {g : List Char} (hg : g ≠ []) (rest : List (List Char)) :
    CSVWriter.joinComma (g :: rest) ≠ [] := by
  cases rest with
  | nil => simpa [joinComma_singleton] using hg
  | cons y rest' =>
    rw [joinComma_cons_cons]
    intro hcontra
    rcases List.append_eq_nil.mp hcontra with ⟨_, h2⟩
    simp at h2

theorem findAll_of_sbMatch {f rest : List Char} {cs : List Char} (hcs : cs ≠ [])
    (h : sbMatch cs = some (f, rest)) : findAll cs = f :: findAll rest := by
  cases cs with
  | nil => exact absurd rfl hcs
  | cons c cs' => exact findAll_cons_some h

/-- Scanning a line that is a comma-joined sequence of plain fields recovers
exactly those fields. -/
theorem findAll_join_plain : ∀ fs : List (List Char),
    (∀ f ∈ fs, plainField f = true) →
    findAll (CSVWriter.joinComma fs) = fs := by
  intro fs
  induction fs with
  | nil => intro _; exact findAll_nil
  | cons f rest ih =>
    intro hall
    have hf : plainField f = true := hall f (by simp)
    cases rest with
    | nil =>
      rw [joinComma_singleton]
      have hm : sbMatch (f ++ []) = some (f, []) := sbMatch_plain hf sepTail_nil
      rw [List.append_nil] at hm
      rw [findAll_of_sbMatch (plainField_ne_nil hf) hm]
      rfl
    | cons g rest' =>
      rw [joinComma_cons_cons]
      have hm : sbMatch (f ++ ',' :: CSVWriter.joinComma (g :: rest')) =
          some (f, CSVWriter.joinComma (g :: rest')) :=
        sbMatch_plain hf (sepTail_comma _)
      have hne : f ++ ',' :: CSVWriter.joinComma (g :: rest') ≠ [] := by
        intro hcontra
        rcases List.append_eq_nil.mp hcontra with ⟨_, h2⟩
        simp at h2
      rw [findAll_of_sbMatch hne hm]
      rw [ih (fun x hx => hall x (by simp [hx]))]

/-! ### `rstrip` facts -/

theorem pyRstrip_nil : pyRstrip [] = [] := rfl

theorem pyRstrip_append_ws {c : Char} (hc : pyWS c = true) (x : List Char) :
    pyRstrip (x ++ [c]) = pyRstrip x := by
  unfold pyRstrip
  rw [List.reverse_append]
  simp [List.dropWhile_cons, hc]

theorem pyRstrip_eq_self {x : List Char} (h : endsWS x = false) : pyRstrip x = x := by
  induction x using List.reverseRecOn with
  | nil => rfl
  | append_singleton y c _ =>
    rw [endsWS_concat] at h
    unfold pyRstrip
    rw [List.reverse_append]
    simp [List.dropWhile_cons, h]

theorem endsWS_append {a b : List Char} (hb : b ≠ []) : endsWS (a ++ b) = endsWS b := by
  simp [endsWS, List.getLast?_append_of_ne_nil _ hb]

theorem endsWS_join_plain : ∀ fs : List (List Char),
    (∀ f ∈ fs, plainField f = true) →
    endsWS (CSVWriter.joinComma fs) = false := by
  intro fs
  induction fs with
  | nil => intro _; rfl
  | cons f rest ih =>
    intro hall
    have hf : plainField f = true := hall f (by simp)
    cases rest with
    | nil =>
      rw [joinComma_singleton]
      cases f with
      | nil => exact absurd hf (by simp [plainField])
      | cons c f' => exact (plainField_cons hf).2.2
    | cons g rest' =>
      rw [joinComma_cons_cons]
      have hg : g ≠ [] := plainField_ne_nil (hall g (by simp))
      have hjoin : CSVWriter.joinComma (g :: rest') ≠ [] := joinComma_ne_nil hg rest'
      rw [endsWS_append (List.cons_ne_nil ',' _)]
      rw [endsWS_cons hjoin]
      exact ih (fun x hx => hall x (by simp [hx]))

/-! ### Serializer facts -/

theorem plainField_not_comma {f : List Char} (hf : plainField f = true) :
    (',' : Char) ∉ f := by
  intro hmem
  cases f with
  | nil => simp at hmem
  | cons c f' =>
    have hall := (plainField_cons hf).2.1
    have := List.all_eq_true.mp hall ',' hmem
    simp [fieldChar] at this

theorem encodeField_plain {f : List Char} (h : (',' : Char) ∉ f) :
    CSVWriter.encodeField f = f := by
  simp [CSVWriter.encodeField, h]

theorem encodeRow_plain : ∀ r : List (List Char),
    (∀ f ∈ r, (',' : Char) ∉ f) → CSVWriter.encodeRow r = r := by
  intro r
  induction r with
  | nil => intro _; rfl
  | cons f rest ih =>
    intro hall
    simp only [CSVWriter.encodeRow]
    rw [encodeField_plain (hall f (by simp)), ih (fun x hx => hall x (by simp [hx]))]

/-! ### Helper characterizations for quotes, escapes and `s`-runs -/

theorem fieldChar_props {c : Char} (h : fieldChar c = true) :
    c ≠ ',' ∧ c ≠ '"' ∧ c ≠ '\'' := by
  unfold fieldChar at h
  simp only [Bool.not_eq_true', Bool.or_eq_false_iff, decide_eq_false_iff_not] at h
  exact ⟨h.1.1, h.1.2, h.2⟩

theorem pyWS_fieldChar {c : Char} (h : pyWS c = true) : fieldChar c = true ∧ c ≠ 's' := by
  have h1 : c ≠ ',' := by intro hc; subst hc; revert h; decide
  have h2 : c ≠ '"' := by intro hc; subst hc; revert h; decide
  have h3 : c ≠ '\'' := by intro hc; subst hc; revert h; decide
  have h4 : c ≠ 's' := by intro hc; subst hc; revert h; decide
  refine ⟨?_, h4⟩
  simp [fieldChar, h1, h2, h3]

theorem plainField_endsWS {f : List Char} (h : plainField f = true) : endsWS f = false := by
  cases f with
  | nil => exact absurd h (by simp [plainField])
  | cons c f' => exact (plainField_cons h).2.2

theorem a1loop_of_sepTail {t u : List Char} (h : sepTail t = some u) :
    a1loop t = some ([], u) := by
  cases t with
  | nil =>
    rw [sepTail_nil] at h
    simp only [Option.some.injEq] at h
    subst h
    exact a1loop_nil
  | cons c t' => exact a1loop_eq_some h

/-- A single plain field standing alone is scanned as itself. -/
theorem findAll_single_plain {f : List Char} (hf : plainField f = true) :
    findAll f = [f] := by
  have := findAll_join_plain [f] (by intro x hx; simp at hx; subst hx; exact hf)
  rwa [joinComma_singleton] at this

/-- Tokenizing a single plain field standing alone yields exactly it. -/
theorem tokenize_single_plain {f : List Char} (hf : plainField f = true) :
    tokenize f = [f] := by
  unfold tokenize
  rw [pyRstrip_eq_self (plainField_endsWS hf)]
  exact findAll_single_plain hf

/-- The double-quote chain consumes characters that are neither a quote nor a
backslash without stopping. -/
theorem a2chain_clean_append : ∀ u : List Char, ∀ w : List Char,
    (∀ c ∈ u, c ≠ '"' ∧ c ≠ '\\') →
    a2chain (u ++ w) = (a2chain w).map (fun p => (u ++ p.1, p.2)) := by
  intro u
  induction u with
  | nil =>
    intro w _
    rcases hw : a2chain w with _ | p <;> simp [hw]
  | cons c u' ih =>
    intro w hc
    have h1 := hc c (by simp)
    rw [List.cons_append, a2chain_other h1.1 h1.2, ih w (fun x hx => hc x (by simp [hx]))]
    rcases hw : a2chain w with _ | p <;> simp [hw]

/-- On quote-free backslash-free text the double-quote chain never finds its
mandatory closing quote. -/
theorem a2chain_none_clean : ∀ t : List Char,
    (∀ c ∈ t, c ≠ '"' ∧ c ≠ '\\') → a2chain t = none := by
  intro t ht
  have := a2chain_clean_append t [] ht
  rw [List.append_nil, a2chain_nil] at this
  simpa using this

/-- The single-quote loop consumes quote-free backslash-free text to the end
of the input, where the tail matches. -/
theorem a3loop_clean : ∀ t : List Char,
    (∀ c ∈ t, c ≠ '\'' ∧ c ≠ '\\') → a3loop t = some (t, []) := by
  intro t
  induction t with
  | nil => intro _; exact a3loop_nil
  | cons c t' ih =>
    intro hc
    have h1 := hc c (by simp)
    rw [a3loop_other h1.1 h1.2, ih (fun x hx => hc x (by simp [hx])), Option.elim_some]

theorem alt1_comma (r : List Char) : alt1 (',' :: r) = none := by
  simp [alt1, fieldChar]

theorem alt2_not_quote {c : Char} (h : c ≠ '"') (r : List Char) : alt2 (c :: r) = none := by
  simp [alt2, h]

theorem alt3_not_quote {c : Char} (h : c ≠ '\'') (r : List Char) : alt3 (c :: r) = none := by
  simp [alt3, h]

/-- No match can start at a comma. -/
theorem sbMatch_comma (r : List Char) : sbMatch (',' :: r) = none := by
  rw [sbMatch_cons_ne (by decide)]
  unfold fieldAlts
  rw [alt1_comma, Option.elim_none, alt2_not_quote (by decide), Option.elim_none,
    alt3_not_quote (by decide)]

/-- A maximal run of `s` before a separator: greedy `s*` backtracks until one
`s` is left for the capture group. -/
theorem sbMatch_sRun : ∀ n : Nat, ∀ {t u : List Char},
    sbMatch t = none → sepTail t = some u →
    sbMatch (List.replicate (n + 1) 's' ++ t) = some (['s'], u) := by
  intro n
  induction n with
  | zero =>
    intro t u hnone hsep
    simp only [List.replicate, List.cons_append, List.nil_append]
    rw [sbMatch_cons_s, hnone, Option.elim_none]
    unfold fieldAlts
    have halt1 : alt1 ('s' :: t) = some (['s'], u) := by
      simp only [alt1]
      rw [if_pos (by decide : fieldChar 's' = true), a1loop_of_sepTail hsep]
      rfl
    rw [halt1, Option.elim_some]
  | succ n ih =>
    intro t u hnone hsep
    have hrep : List.replicate (n + 2) 's' ++ t = 's' :: (List.replicate (n + 1) 's' ++ t) := by
      simp [List.replicate_succ]
    rw [hrep, sbMatch_cons_s, ih hnone hsep, Option.elim_some]

/-- A run of `s` before a plain field is consumed by the greedy `s*` outside
the capture. -/
theorem sbMatch_sPrefix : ∀ n : Nat, ∀ {f t u : List Char},
    plainField f = true → sepTail t = some u →
    sbMatch (List.replicate n 's' ++ (f ++ t)) = some (f, u) := by
  intro n
  induction n with
  | zero =>
    intro f t u hf hsep
    simpa using sbMatch_plain hf hsep
  | succ n ih =>
    intro f t u hf hsep
    have hrep : List.replicate (n + 1) 's' ++ (f ++ t) =
        's' :: (List.replicate n 's' ++ (f ++ t)) := by
      simp [List.replicate_succ]
    rw [hrep, sbMatch_cons_s, ih hf hsep, Option.elim_some]

/-! ### Every emitted field is non-empty -/

theorem fieldAlts_fst_ne_nil : ∀ cs : List Char, ∀ {p : List Char × List Char},
    fieldAlts cs = some p → p.1 ≠ [] := by
  intro cs p h
  cases cs with
  | nil => exact absurd h (by simp [fieldAlts_nil])
  | cons c cs' =>
    unfold fieldAlts at h
    rcases h1 : alt1 (c :: cs') with _ | q <;> rw [h1] at h
    · rw [Option.elim_none] at h
      rcases h2 : alt2 (c :: cs') with _ | q <;> rw [h2] at h
      · rw [Option.elim_none] at h
        simp only [alt3] at h
        by_cases hq : c = '\''
        · rw [if_pos hq] at h
          rcases hr : a3loop cs' with _ | q <;> rw [hr] at h
          · simp at h
          · simp only [Option.map_some', Option.some.injEq] at h
            subst h
            simp
        · rw [if_neg hq] at h
          simp at h
      · rw [Option.elim_some] at h
        simp only [Option.some.injEq] at h
        subst h
        simp only [alt2] at h2
        by_cases hq : c = '"'
        · rw [if_pos hq] at h2
          rcases hr : a2chain cs' with _ | q2 <;> rw [hr] at h2
          · simp at h2
          · simp only [Option.some_bind] at h2
            rcases hs : sepTail q2.2 with _ | u <;> rw [hs] at h2
            · simp at h2
            · simp only [Option.map_some', Option.some.injEq] at h2
              subst h2
              simp
        · rw [if_neg hq] at h2
          simp at h2
    · rw [Option.elim_some] at h
      simp only [Option.some.injEq] at h
      subst h
      simp only [alt1] at h1
      by_cases hc : fieldChar c = true
      · rw [if_pos hc] at h1
        rcases hr : a1loop cs' with _ | q2 <;> rw [hr] at h1
        · simp at h1
        · simp only [Option.map_some', Option.some.injEq] at h1
          subst h1
          simp
      · rw [if_neg hc] at h1
        simp at h1

theorem sbMatch_fst_ne_nil : ∀ cs : List Char, ∀ {p : List Char × List Char},
    sbMatch cs = some p → p.1 ≠ [] := by
  intro cs
  induction cs using sbMatch.induct with
  | case1 =>
    intro p h
    exact absurd h (by simp [sbMatch_nil])
  | case2 rest ih =>
    intro p h
    rw [sbMatch_cons_s] at h
    rcases hq : sbMatch rest with _ | q <;> rw [hq] at h
    · rw [Option.elim_none] at h
      exact fieldAlts_fst_ne_nil _ h
    · rw [Option.elim_some] at h
      simp only [Option.some.injEq] at h
      subst h
      exact ih hq
  | case3 c rest hc =>
    intro p h
    rw [sbMatch_cons_ne hc] at h
    exact fieldAlts_fst_ne_nil _ h

theorem findAll_mem_ne_nil : ∀ n : Nat, ∀ cs : List Char, cs.length ≤ n →
    ∀ f ∈ findAll cs, f ≠ [] := by
  intro n
  induction n with
  | zero =>
    intro cs hlen f hf
    have : cs = [] := List.length_eq_zero.mp (Nat.le_zero.mp hlen)
    subst this
    rw [findAll_nil] at hf
    simp at hf
  | succ n ih =>
    intro cs hlen f hf
    cases cs with
    | nil =>
      rw [findAll_nil] at hf
      simp at hf
    | cons c cs' =>
      rcases hq : sbMatch (c :: cs') with _ | p
      · rw [findAll_cons_none hq] at hf
        simp only [List.length_cons] at hlen
        exact ih cs' (by omega) f hf
      · rw [findAll_cons_some hq] at hf
        rw [List.mem_cons] at hf
        rcases hf with hf | hf
        · subst hf
          exact sbMatch_fst_ne_nil _ hq
        · have hplen := sbMatch_length (c :: cs') hq
          simp only [List.length_cons] at hlen hplen
          exact ih p.2 (by omega) f hf

/-! ### Claim theorems -/

/-- Claim C1 (counterexample): the round-trip fails for a record whose fields
contain no raw comma and no quote characters.  The field `sa` starts with the
literal character `s`, which the pattern's leading `s*` consumes outside the
capture: tokenizing the serialized line yields `a`, not `sa`. -/
theorem c1_counterexample :
    tokenize (CSVWriter.writerow [['s', 'a']]) ≠ [['s', 'a']] := by decide

/-- Claim C1 (amended): for every record whose fields contain no comma and no
quote characters, and additionally are non-empty, do not begin with the
literal character `s`, and do not end in whitespace, tokenizing the line
produced by serializing the record yields the original record. -/
theorem c1_roundtrip_plain (r : List (List Char))
    (h : ∀ f ∈ r, plainField f = true) :
    tokenize (CSVWriter.writerow r) = r := by
  unfold tokenize CSVWriter.writerow
  rw [encodeRow_plain r (fun f hf => plainField_not_comma (h f hf))]
  rw [pyRstrip_append_ws (by decide) _]
  rw [pyRstrip_eq_self (endsWS_join_plain r h)]
  exact findAll_join_plain r h

/-- Witness for C1: the round-trip holds at the record `[ab, c]`. -/
theorem c1_roundtrip_plain_witness :
    (∀ f ∈ [['a', 'b'], ['c']], plainField f = true) ∧
    tokenize (CSVWriter.writerow [['a', 'b'], ['c']]) = [['a', 'b'], ['c']] :=
  ⟨by decide, c1_roundtrip_plain [['a', 'b'], ['c']] (by decide)⟩

/-- Claim C7 (counterexample): whitespace immediately before a field is not
consumed outside the capture; it is captured into the field.  Tokenizing
`" a"` yields the field `" a"`, not `"a"`. -/
theorem c7_counterexample :
    tokenize [' ', 'a'] = [[' ', 'a']] ∧ tokenize [' ', 'a'] ≠ [['a']] := by decide

/-- Claim C7 (amended): whitespace standing immediately after a field (before
the delimiter) is consumed structurally outside the captured field by the
pattern's trailing `\s*`; but whitespace standing immediately before a field
is not consumed (the pattern starts with the literal `s*`, not `\s*`) and
becomes part of the captured unquoted field. -/
theorem c7_whitespace (f g w : List Char)
    (hf : plainField f = true) (hg : plainField g = true) (hw : w.all pyWS = true) :
    tokenize (f ++ w ++ ',' :: g) = [f, g] ∧
    (w ≠ [] → tokenize (w ++ f) = [w ++ f]) := by
  constructor
  · have hg0 : g ≠ [] := plainField_ne_nil hg
    unfold tokenize
    rw [List.append_assoc]
    have hends : endsWS (f ++ (w ++ ',' :: g)) = false := by
      rw [endsWS_append (by simp), endsWS_append (List.cons_ne_nil ',' g),
        endsWS_cons hg0]
      exact plainField_endsWS hg
    rw [pyRstrip_eq_self hends]
    have hm : sbMatch (f ++ (w ++ ',' :: g)) = some (f, g) :=
      sbMatch_plain hf (sepTail_ws_comma hw g)
    rw [findAll_of_sbMatch (by simp [plainField_ne_nil hf]) hm]
    rw [findAll_single_plain hg]
  · intro hw0
    have hplain : plainField (w ++ f) = true := by
      cases hwshape : w with
      | nil => exact absurd hwshape hw0
      | cons a w' =>
        rw [hwshape] at hw
        simp only [List.all_cons, Bool.and_eq_true] at hw
        have ha := pyWS_fieldChar hw.1
        rw [List.cons_append]
        simp only [plainField]
        refine (Bool.and_eq_true _ _).mpr ⟨(Bool.and_eq_true _ _).mpr ⟨?_, ?_⟩, ?_⟩
        · simp [ha.2]
        · rw [List.all_cons]
          refine (Bool.and_eq_true _ _).mpr ⟨ha.1, ?_⟩
          rw [List.all_append]
          refine (Bool.and_eq_true _ _).mpr ⟨?_, ?_⟩
          · rw [List.all_eq_true]
            intro c hc
            exact (pyWS_fieldChar (List.all_eq_true.mp hw.2 c hc)).1
          · cases f with
            | nil => exact absurd rfl (plainField_ne_nil hf)
            | cons b f' => exact (plainField_cons hf).2.1
        · rw [Bool.not_eq_true', ← List.cons_append, endsWS_append (plainField_ne_nil hf)]
          exact plainField_endsWS hf
    rw [tokenize_single_plain hplain]

/-- Witness for C7: trailing whitespace before the comma is dropped between
the fields `a` and `b`; a leading space survives inside the field. -/
theorem c7_whitespace_witness :
    tokenize (['a'] ++ [' '] ++ ',' :: ['b']) = [['a'], ['b']] ∧
    tokenize ([' '] ++ ['a']) = [[' ', 'a']] := by
  have h := c7_whitespace ['a'] ['b'] [' '] (by decide) (by decide) (by decide)
  exact ⟨h.1, h.2 (by decide)⟩

/-- Claim C9 (counterexample): a leading run of `s` is not always removed in
full.  For the line `ss`, whose only field consists entirely of `s`
characters, the greedy `s*` backtracks and one `s` is captured as the field:
the tokenizer emits `[s]`, neither an empty field nor nothing. -/
theorem c9_counterexample :
    tokenize ['s', 's'] = [['s']] ∧
    tokenize ['s', 's'] ≠ [] ∧ tokenize ['s', 's'] ≠ [[]] := by decide

/-- Claim C9 (amended): the pattern begins with the literal `s*`, so a run of
the character `s` standing immediately before a field (at line start or just
after a comma) is consumed outside the capture and dropped — except that when
everything up to the next delimiter or the end of the line consists of `s`
characters only, greedy backtracking leaves exactly one `s` as the captured
field. -/
theorem c9_leading_s (n : Nat) (u f : List Char)
    (hu : plainField u = true) (hf : plainField f = true) :
    tokenize (List.replicate n 's' ++ f) = [f] ∧
    tokenize (u ++ ',' :: (List.replicate n 's' ++ f)) = [u, f] ∧
    tokenize (List.replicate (n + 1) 's') = [['s']] := by
  have hf0 : f ≠ [] := plainField_ne_nil hf
  have hsingle : findAll (List.replicate n 's' ++ f) = [f] := by
    have hm : sbMatch (List.replicate n 's' ++ (f ++ [])) = some (f, []) :=
      sbMatch_sPrefix n hf sepTail_nil
    rw [List.append_nil] at hm
    rw [findAll_of_sbMatch (by simp [hf0]) hm]
    rfl
  have hends : endsWS (List.replicate n 's' ++ f) = false := by
    rw [endsWS_append hf0]
    exact plainField_endsWS hf
  refine ⟨?_, ?_, ?_⟩
  · unfold tokenize
    rw [pyRstrip_eq_self hends]
    exact hsingle
  · unfold tokenize
    have hendsu : endsWS (u ++ ',' :: (List.replicate n 's' ++ f)) = false := by
      rw [endsWS_append (List.cons_ne_nil ',' _),
        endsWS_cons (by simp [hf0]), hends]
    rw [pyRstrip_eq_self hendsu]
    have hm : sbMatch (u ++ ',' :: (List.replicate n 's' ++ f)) =
        some (u, List.replicate n 's' ++ f) :=
      sbMatch_plain hu (sepTail_comma _)
    rw [findAll_of_sbMatch (by simp [plainField_ne_nil hu]) hm]
    rw [hsingle]
  · unfold tokenize
    have hends' : endsWS (List.replicate (n + 1) 's') = false := by
      rw [List.replicate_succ']
      rw [endsWS_concat]
      decide
    rw [pyRstrip_eq_self hends']
    have hm : sbMatch (List.replicate (n + 1) 's' ++ []) = some (['s'], []) :=
      sbMatch_sRun n sbMatch_nil sepTail_nil
    rw [List.append_nil] at hm
    rw [findAll_of_sbMatch (by simp) hm]
    rfl

/-- Witness for C9: `ssa` tokenizes to `a`; `b,sa` tokenizes to `[b, a]`;
`sss` tokenizes to `[s]`. -/
theorem c9_leading_s_witness :
    tokenize (List.replicate 2 's' ++ ['a']) = [['a']] ∧
    tokenize (['b'] ++ ',' :: (List.replicate 2 's' ++ ['a'])) = [['b'], ['a']] ∧
    tokenize (List.replicate 3 's') = [['s']] := by
  have h := c9_leading_s 2 ['b'] ['a'] (by decide) (by decide)
  exact ⟨h.1, h.2.1, h.2.2⟩

/-- Claim C10 (confirmed): every field the tokenizer emits is non-empty: each
alternative of the capture group matches at least one character, so empty
fields between consecutive commas, before a leading comma, or after a
trailing comma are silently dropped; the empty line yields no fields, and a
line ending in a delimiter yields no trailing empty field. -/
theorem c10_no_empty_fields :
    (∀ line : List Char, (tokenize line).all (fun f => !f.isEmpty) = true) ∧
    tokenize [] = [] ∧
    tokenize [','] = [] ∧
    tokenize [',', ','] = [] ∧
    tokenize ['a', ','] = [['a']] ∧
    tokenize ['a', ',', ',', 'b'] = [['a'], ['b']] := by
  refine ⟨?_, by decide, by decide, by decide, by decide, by decide⟩
  intro line
  rw [List.all_eq_true]
  intro f hf
  have hne : f ≠ [] :=
    findAll_mem_ne_nil (pyRstrip line).length (pyRstrip line) le_rfl f hf
  cases f with
  | nil => exact absurd rfl hne
  | cons c f' => rfl

theorem alt1_not_fieldChar {c : Char} (h : fieldChar c = false) (r : List Char) :
    alt1 (c :: r) = none := by
  simp [alt1, h]

theorem plainField_all {f : List Char} (h : plainField f = true) :
    f.all fieldChar = true := by
  cases f with
  | nil => exact absurd h (by simp [plainField])
  | cons c f' => exact (plainField_cons h).2.1

/-- Claim C4 (counterexample): a line with an unterminated opening single
quote yields a field that still contains the opening quote, not just the text
following it: tokenizing `'abc` yields `'abc`, not `abc`. -/
theorem c4_counterexample :
    tokenize ['\'', 'a', 'b', 'c'] = [['\'', 'a', 'b', 'c']] ∧
    tokenize ['\'', 'a', 'b', 'c'] ≠ [['a', 'b', 'c']] := by decide

/-- Claim C4 (amended): the tokenizer is total by construction and degrades
gracefully on unterminated quotes.  For an unterminated opening single quote
the single-quote alternative itself matches (its pattern has no closing
quote), producing a best-effort field consisting of the opening quote and all
of the following text; for an unterminated opening double quote no match
starts at the quote, the scanner skips it, and the following text is
tokenized on its own. -/
theorem c4_unterminated_quote :
    (∀ t : List Char, (∀ c ∈ t, c ≠ '\'' ∧ c ≠ '\\') → endsWS t = false →
      tokenize ('\'' :: t) = [('\'' :: t)]) ∧
    (∀ t : List Char, plainField t = true → (∀ c ∈ t, c ≠ '\\') →
      tokenize ('"' :: t) = [t]) := by
  constructor
  · intro t hc hw
    unfold tokenize
    have hends : endsWS ('\'' :: t) = false := by
      cases t with
      | nil => decide
      | cons d t' => rw [endsWS_cons (by simp)]; exact hw
    rw [pyRstrip_eq_self hends]
    have hm : sbMatch ('\'' :: t) = some ('\'' :: t, []) := by
      rw [sbMatch_cons_ne (by decide)]
      unfold fieldAlts
      rw [alt1_not_fieldChar (by decide), Option.elim_none,
        alt2_not_quote (by decide), Option.elim_none]
      simp only [alt3]
      rw [if_pos trivial, a3loop_clean t hc]
      rfl
    rw [findAll_of_sbMatch (by simp) hm]
    rfl
  · intro t hp hb
    unfold tokenize
    have ht0 : t ≠ [] := plainField_ne_nil hp
    have hends : endsWS ('"' :: t) = false := by
      rw [endsWS_cons ht0]
      exact plainField_endsWS hp
    rw [pyRstrip_eq_self hends]
    have hclean : ∀ c ∈ t, c ≠ '"' ∧ c ≠ '\\' := by
      intro c hc
      exact ⟨(fieldChar_props (List.all_eq_true.mp (plainField_all hp) c hc)).2.1, hb c hc⟩
    have hnone : sbMatch ('"' :: t) = none := by
      rw [sbMatch_cons_ne (by decide)]
      unfold fieldAlts
      rw [alt1_not_fieldChar (by decide), Option.elim_none]
      have halt2 : alt2 ('"' :: t) = none := by
        simp only [alt2]
        rw [if_pos trivial, a2chain_none_clean t hclean]
        rfl
      rw [halt2, Option.elim_none, alt3_not_quote (by decide)]
    rw [findAll_cons_none hnone]
    exact findAll_single_plain hp

/-- Witness for C4: `'ab` tokenizes to `['ab]`; `"ab` tokenizes to `[ab]`. -/
theorem c4_unterminated_quote_witness :
    tokenize ['\'', 'a', 'b'] = [['\'', 'a', 'b']] ∧
    tokenize ['"', 'a', 'b'] = [['a', 'b']] :=
  ⟨c4_unterminated_quote.1 ['a', 'b'] (by decide) (by decide),
   c4_unterminated_quote.2 ['a', 'b'] (by decide) (by decide)⟩

/-- Claim C2 (counterexample): the wrapping quote characters are not removed
from the emitted field.  For the field `a,b`, the serializer writes
`"a,b"` and tokenizing that line yields the field `"a,b"` with the quotes
still present, not `a,b`. -/
theorem c2_counterexample :
    tokenize (CSVWriter.writerow [['a', ',', 'b']]) = [['"', 'a', ',', 'b', '"']] ∧
    tokenize (CSVWriter.writerow [['a', ',', 'b']]) ≠ [['a', ',', 'b']] := by decide

/-- Claim C2 (amended): a field wrapped in DOUBLE quotes is emitted by the
tokenizer with the wrapping quote characters still included (the capture
group spans the quotes); a comma inside a double-quoted span does not split
the field, and a backslash followed by any character inside double quotes
(including an escaped quote) is kept as literal content and does not
terminate the quoted span.  In particular, for a field `f` containing a comma
(and no double quote or backslash), tokenizing the serializer's output for
`[f]` recovers the single field `"f"` — `f` with the double quotes kept.
No such contract holds for single quotes: the pattern's single-quote
alternative has no closing quote, so a single-quoted field standing alone
collapses to just its opening quote (`'a'` tokenizes to `[']`), and a comma
inside a single-quoted span does split the field (`'a,b'` tokenizes to
`['a, ']`), as the last two conjuncts pin down. -/
theorem c2_quoted_field :
    (∀ f : List Char, ',' ∈ f → (∀ c ∈ f, c ≠ '"' ∧ c ≠ '\\') →
      tokenize (CSVWriter.writerow [f]) = ['"' :: (f ++ ['"'])]) ∧
    (∀ v w : List Char, (∀ c ∈ v, c ≠ '"' ∧ c ≠ '\\') → (∀ c ∈ w, c ≠ '"' ∧ c ≠ '\\') →
      tokenize ('"' :: (v ++ '\\' :: '"' :: (w ++ ['"']))) =
        ['"' :: (v ++ '\\' :: '"' :: (w ++ ['"']))]) ∧
    tokenize ['\'', 'a', '\''] = [['\'']] ∧
    tokenize ['\'', 'a', ',', 'b', '\''] = [['\'', 'a'], ['\'']] := by
  have hquote_line : ∀ x : List Char, a2chain x = some (x, []) →
      endsWS ('"' :: x) = false → tokenize ('"' :: x) = ['"' :: x] := by
    intro x hchain hends
    unfold tokenize
    rw [pyRstrip_eq_self hends]
    have hm : sbMatch ('"' :: x) = some ('"' :: x, []) := by
      rw [sbMatch_cons_ne (by decide)]
      unfold fieldAlts
      rw [alt1_not_fieldChar (by decide), Option.elim_none]
      have halt2 : alt2 ('"' :: x) = some ('"' :: x, []) := by
        simp only [alt2]
        rw [if_pos trivial, hchain]
        rfl
      rw [halt2, Option.elim_some]
    rw [findAll_of_sbMatch (by simp) hm]
    rfl
  refine ⟨?_, ?_, by decide, by decide⟩
  · intro f hcomma hclean
    have hwr : CSVWriter.writerow [f] = ('"' :: (f ++ ['"'])) ++ ['\n'] := by
      simp only [CSVWriter.writerow, CSVWriter.encodeRow, CSVWriter.encodeField,
        if_pos hcomma, joinComma_singleton]
    have hchain : a2chain (f ++ ['"']) = some (f ++ ['"'], []) := by
      rw [a2chain_clean_append f ['"'] hclean, a2chain_quote]
      rfl
    have hends : endsWS ('"' :: (f ++ ['"'])) = false := by
      rw [endsWS_cons (by simp), endsWS_concat]
      decide
    have h2 := hquote_line (f ++ ['"']) hchain hends
    unfold tokenize at h2 ⊢
    rw [hwr, pyRstrip_append_ws (by decide)]
    exact h2
  · intro v w hv hw
    have hchain : a2chain (v ++ '\\' :: '"' :: (w ++ ['"'])) =
        some (v ++ '\\' :: '"' :: (w ++ ['"']), []) := by
      rw [a2chain_clean_append v _ hv, a2chain_bs (by decide),
        a2chain_clean_append w ['"'] hw, a2chain_quote]
      rfl
    have hends : endsWS ('"' :: (v ++ '\\' :: '"' :: (w ++ ['"']))) = false := by
      rw [endsWS_cons (by simp), endsWS_append (by simp),
        endsWS_cons (by simp), endsWS_cons (by simp), endsWS_concat]
      decide
    exact hquote_line _ hchain hends

/-- Witness for C2: serializing the field `a,b` and tokenizing yields
`"a,b"` with quotes kept; an escaped quote inside a double-quoted span stays
literal: `"x\",y"` tokenizes to itself as one field. -/
theorem c2_quoted_field_witness :
    tokenize (CSVWriter.writerow [['a', ',', 'b']]) = [['"', 'a', ',', 'b', '"']] ∧
    tokenize ['"', 'x', '\\', '"', ',', 'y', '"'] =
      [['"', 'x', '\\', '"', ',', 'y', '"']] := by
  have h1 := c2_quoted_field.1 ['a', ',', 'b'] (by decide) (by decide)
  have h2 := c2_quoted_field.2.1 ['x'] [',', 'y'] (by decide) (by decide)
  exact ⟨h1, h2⟩

/-! ### Serializer refinement (C3) and `main`-loop claims -/

theorem encodeRow_eq_map : ∀ r : List (List Char),
    CSVWriter.encodeRow r = r.map CSVWriter.encodeField := by
  intro r
  induction r with
  | nil => rfl
  | cons f rest ih => simp only [CSVWriter.encodeRow, List.map_cons, ih]

theorem joinComma_eq_intercalate : ∀ l : List (List Char),
    CSVWriter.joinComma l = List.intercalate [','] l := by
  intro l
  induction l with
  | nil => rfl
  | cons x rest ih =>
    cases rest with
    | nil => simp [joinComma_singleton, List.intercalate]
    | cons y rest' =>
      rw [joinComma_cons_cons, ih]
      simp [List.intercalate, List.intersperse_cons_cons]

/-- Claim C3 (confirmed): `CSVWriter.writerow` emits exactly the fields
joined by a single comma followed by one newline, where a field is wrapped in
double quotes if and only if it contains a comma (`re.search(',', item)`),
and no other character triggers quoting; fields appear in order otherwise
unmodified.  This is a refinement proof against `specSerialize`, which states
the specification's serializer contract independently. -/
theorem c3_writerow_spec : ∀ row : List (List Char),
    CSVWriter.writerow row = specSerialize row := by
  intro row
  unfold CSVWriter.writerow specSerialize
  rw [joinComma_eq_intercalate, encodeRow_eq_map]
  rfl

/-- Positive in-bounds Python index: `row[k-1]` for `1 ≤ k ≤ len`. -/
theorem pyIndex_pos_some {len : Nat} {k : Int} (h1 : 1 ≤ k) (h2 : k ≤ (len : Int)) :
    pyIndex len (k - 1) = some (k - 1).toNat := by
  unfold pyIndex
  rw [if_pos (by omega), if_pos (by omega)]

/-- Positive out-of-bounds Python index: `row[k-1]` for `k > len` raises. -/
theorem pyIndex_pos_none {len : Nat} {k : Int} (h1 : 1 ≤ k) (h2 : (len : Int) < k) :
    pyIndex len (k - 1) = none := by
  unfold pyIndex
  rw [if_pos (by omega), if_neg (by omega)]

/-- An in-bounds row is processed successfully (the transform is total, per
the specification's treatment of the currency formatting as an opaque
collaborator). -/
theorem processRow_ok_of_inbounds (conv : List Char → List Char) {k : Int}
    {row : List (List Char)} (h1 : 1 ≤ k) (h2 : k ≤ (row.length : Int)) :
    ∃ row', processRow conv k row = .ok row' := by
  have hidx : pyIndex row.length (k - 1) = some (k - 1).toNat := pyIndex_pos_some h1 h2
  have hklt : (k - 1).toNat < row.length := by omega
  obtain ⟨v, hv⟩ : ∃ v, row.get? (k - 1).toNat = some v := by
    rw [List.get?_eq_getElem?]
    exact ⟨_, List.getElem?_eq_getElem hklt⟩
  have hget : pyGet row (k - 1) = some v := by
    unfold pyGet
    rw [hidx]
    simpa using hv
  have hset : pySet row (k - 1) (conv v) = some (row.set (k - 1).toNat (conv v)) := by
    unfold pySet
    rw [hidx]
    rfl
  refine ⟨row.set (k - 1).toNat (conv v), ?_⟩
  unfold processRow
  rw [hget, Option.elim_some, hset, Option.elim_some]

/-- Claim C5 (counterexample): the 1-based index `0` does not identify any
existing column, yet the per-row access does not fail: Python's negative
indexing makes `row[0-1]` the last column, which is replaced silently. -/
theorem c5_counterexample :
    processRow (fun f => f) 0 [['1'], ['2']] = .ok [['1'], ['2']] ∧
    processRow (fun _ => ['X']) 0 [['1'], ['2']] = .ok [['1'], ['X']] := by
  constructor <;> rfl

/-- Claim C5 (amended): for a positive 1-based field index `k` exceeding the
number of columns of some row, the field access for that row fails with an
`IndexError` that is surfaced to the caller, and the whole run aborts at that
row: no matter what rows follow, `main`'s loop returns the error (rows before
it must be in bounds for processing to reach the failing row).  Indices
`k ≤ 0`, by contrast, wrap around to columns counted from the end
(see the counterexample). -/
theorem c5_index_error (conv : List Char → List Char) (k : Int)
    (row : List (List Char)) (rest : List (List (List Char)))
    (pre : List (List (List Char)))
    (h1 : 1 ≤ k) (h2 : (row.length : Int) < k)
    (hpre : ∀ r ∈ pre, k ≤ (r.length : Int)) :
    processRow conv k row = .error .indexError ∧
    mainLoop conv k (pre ++ row :: rest) = .error .indexError := by
  have herr : processRow conv k row = .error .indexError := by
    unfold processRow pyGet
    rw [pyIndex_pos_none h1 h2]
    rfl
  refine ⟨herr, ?_⟩
  induction pre with
  | nil =>
    simp only [List.nil_append, mainLoop]
    rw [herr]
    rfl
  | cons r pre' ih =>
    obtain ⟨row', hok⟩ := processRow_ok_of_inbounds conv h1 (hpre r (by simp))
    simp only [List.cons_append, mainLoop, List.append_eq]
    rw [hok, ih (fun x hx => hpre x (by simp [hx]))]
    rfl

/-- Witness for C5: index 3 on a 1-column row aborts the run regardless of
the following rows. -/
theorem c5_index_error_witness :
    processRow (fun f => f) 3 [['a']] = .error .indexError ∧
    mainLoop (fun f => f) 3 ([[['x'], ['y'], ['z']]] ++ [['a']] :: [[['b'], ['c'], ['d']]]) =
      .error .indexError :=
  c5_index_error (fun f => f) 3 [['a']] [[['b'], ['c'], ['d']]] [[['x'], ['y'], ['z']]]
    (by decide) (by decide) (by decide)

/-- Claim C6 (confirmed): for an in-range 1-based field index `k`, the
per-row step replaces exactly the field at position `k` with the transform of
its old value; the number of fields is preserved and every other position is
unchanged. -/
theorem c6_frame (conv : List Char → List Char) (k : Nat) (row : List (List Char))
    (h1 : 1 ≤ k) (h2 : k ≤ row.length) :
    ∃ v, row.get? (k - 1) = some v ∧
      processRow conv (k : Int) row = .ok (row.set (k - 1) (conv v)) ∧
      (row.set (k - 1) (conv v)).length = row.length ∧
      ∀ j, j ≠ k - 1 → (row.set (k - 1) (conv v)).get? j = row.get? j := by
  have hk : k - 1 < row.length := by omega
  have hidx : pyIndex row.length ((k : Int) - 1) = some (k - 1) := by
    unfold pyIndex
    rw [if_pos (by omega), if_pos (by omega)]
    congr 1
    omega
  obtain ⟨v, hv⟩ : ∃ v, row.get? (k - 1) = some v := by
    rw [List.get?_eq_getElem?]
    exact ⟨_, List.getElem?_eq_getElem hk⟩
  have hget : pyGet row ((k : Int) - 1) = some v := by
    unfold pyGet
    rw [hidx]
    simpa using hv
  have hset : pySet row ((k : Int) - 1) (conv v) = some (row.set (k - 1) (conv v)) := by
    unfold pySet
    rw [hidx]
    rfl
  refine ⟨v, hv, ?_, List.length_set row (k - 1) (conv v), ?_⟩
  · unfold processRow
    rw [hget, Option.elim_some, hset, Option.elim_some]
  · intro j hj
    rw [List.get?_eq_getElem?, List.get?_eq_getElem?]
    exact List.getElem?_set_ne (fun h => hj h.symm)

/-- Witness for C6: replacing field 2 of a three-column row changes only that
field. -/
theorem c6_frame_witness :
    ∃ v, [['a'], ['b'], ['c']].get? (2 - 1) = some v ∧
      processRow (fun f => 'X' :: f) ((2 : Nat) : Int) [['a'], ['b'], ['c']] =
        .ok ([['a'], ['b'], ['c']].set (2 - 1) ('X' :: v)) ∧
      ([['a'], ['b'], ['c']].set (2 - 1) ('X' :: v)).length = [['a'], ['b'], ['c']].length ∧
      ∀ j, j ≠ 2 - 1 →
        ([['a'], ['b'], ['c']].set (2 - 1) ('X' :: v)).get? j = [['a'], ['b'], ['c']].get? j :=
  c6_frame (fun f => 'X' :: f) 2 [['a'], ['b'], ['c']] (by decide) (by decide)

/-- Claim C8 (counterexample): the locale state observable after a
`convert_currency` call differs from the state before it whenever the
override entries were absent beforehand: the call installs
`p_cs_precedes`/`n_cs_precedes` into `locale._override_localeconv` and never
removes them.  (Moreover `LC_MONETARY` is "restored" from
`locale.getlocale()`, which reads `LC_CTYPE`, so it ends up as the `LC_CTYPE`
locale, here `en_US` instead of the original `fr_FR`.) -/
theorem c8_counterexample :
    convert_currency_state "fr_FR"
        { lcMonetary := "fr_FR", lcCtype := "en_US",
          pCsPrecedes := none, nCsPrecedes := none } ≠
      { lcMonetary := "fr_FR", lcCtype := "en_US",
        pCsPrecedes := none, nCsPrecedes := none } := by
  decide

/-- Claim C8 (amended): after a `convert_currency` call, the `LC_MONETARY`
category locale equals the prior `LC_CTYPE` locale (the saved
`locale.getlocale()` value defaults to the `LC_CTYPE` category, so the
original `LC_MONETARY` is restored only when the two categories agreed), and
the two localeconv override entries installed inside the call persist; the
`LC_CTYPE` category itself is untouched. -/
theorem c8_locale_state (loc : String) (s : LocaleState) :
    convert_currency_state loc s =
      { lcMonetary := s.lcCtype, lcCtype := s.lcCtype,
        pCsPrecedes := some 1, nCsPrecedes := some 1 } := rfl

/-! ### Cross-checked example vectors (validated against CPython's `re`) -/

example : tokenize ['1', '0', '0', ',', '"', 'S', 'm', 'i', 't', 'h', ',', ' ',
    'J', 'o', 'h', 'n', '"', ',', '2', '5', '0', '.', '5'] =
    [['1', '0', '0'], ['"', 'S', 'm', 'i', 't', 'h', ',', ' ', 'J', 'o', 'h', 'n', '"'],
     ['2', '5', '0', '.', '5']] := by decide

example : tokenize ['s', 'a', 'l', 'e'] = [['a', 'l', 'e']] := by decide

example : tokenize ['\'', 'a', '\'', ',', '\'', 'b', '\''] = [['\''], ['\'']] := by decide

example : tokenize ['a', ' ', ',', 'b'] = [['a'], ['b']] := by decide

example : tokenize ['"', 'a', 'b', '\\'] = [['a', 'b', '\\']] := by decide

example : tokenize ['"', 'a', 'b', '\\', '"'] = [] := by decide

example : tokenize ['a', '\\', ',', 'b'] = [['a', '\\'], ['b']] := by decide

example : CSVWriter.writerow [['a'], ['b', ',', 'c']] =
    ['a', ',', '"', 'b', ',', 'c', '"', '\n'] := by decide

end CurrencyConvert
